import Mathlib

set_option maxHeartbeats 1000000

/-!
Verification of the sparse-matrix engine in `codes_sparsematrix.py`.

The Python class `SparseMatrix` stores a matrix as a dictionary of
dictionaries: `data` maps a row key to an inner dictionary mapping a
column key to an integer value.  Python dictionaries are modelled here as
insertion-ordered association lists; key uniqueness (which real dicts
guarantee) is tracked separately by the `WF` predicate.  Python integers
are modelled by `Int`.  Python `raise ValueError(msg)` is modelled by
`Except MatrixError`, with the two error kinds the specification
distinguishes.
-/

/-- Error kinds: the operators raise a dimension mismatch, the parser a
format error.  Both carry the Python exception message. -/
inductive MatrixError where
  | dimensionMismatch (msg : String) : MatrixError
  | formatError (msg : String) : MatrixError
deriving DecidableEq

/-- The sparse matrix: `rows`, `cols`, and the dictionary-of-dictionaries
`data`, modelled as an insertion-ordered association list from row key to
an inner association list from column key to value. -/
structure SparseMatrix where
  rows : Int
  cols : Int
  data : List (Int × List (Int × Int))
deriving DecidableEq

/-- First-match lookup in an association list, modelling `dict.get` /
`dict[k]` (on genuine dicts keys are unique, so first-match agrees with
dict indexing). -/
def assocFind {α : Type} (k : Int) : List (Int × α) → Option α
  | [] => none
  | (k0, v0) :: rest => if k0 = k then some v0 else assocFind k rest

/-- `get_element`: `self.data.get(row, {}).get(col, 0)`. -/
def SparseMatrix.get_element (m : SparseMatrix) (row col : Int) : Int :=
  match assocFind row m.data with
  | none => 0
  | some inner =>
    match assocFind col inner with
    | none => 0
    | some v => v

/-- Update (or append) a key in an inner dictionary, preserving insertion
order as Python dict assignment does. -/
def setInner : List (Int × Int) → Int → Int → List (Int × Int)
  | [], col, value => [(col, value)]
  | (c0, v0) :: rest, col, value =>
    if c0 = col then (c0, value) :: rest else (c0, v0) :: setInner rest col value

/-- Update (or append) a row in the outer dictionary:
`if row not in self.data: self.data[row] = {}` followed by
`self.data[row][col] = value`. -/
def setOuter : List (Int × List (Int × Int)) → Int → Int → Int →
    List (Int × List (Int × Int))
  | [], row, col, value => [(row, [(col, value)])]
  | (r0, inner0) :: rest, row, col, value =>
    if r0 = row then (r0, setInner inner0 col value) :: rest
    else (r0, inner0) :: setOuter rest row col value

/-- `set_element`: insert or overwrite the value at `(row, col)`. -/
def SparseMatrix.set_element (m : SparseMatrix) (row col value : Int) : SparseMatrix :=
  { m with data := setOuter m.data row col value }

/-- Whether a value is stored at key `(r, c)` (an explicit entry, possibly
zero-valued, as opposed to the implicit zero of absent keys). -/
def storedB (m : SparseMatrix) (r c : Int) : Bool :=
  match assocFind r m.data with
  | none => false
  | some inner => (assocFind c inner).isSome

/-- The row keys of the outer dictionary. -/
def rowKeys (d : List (Int × List (Int × Int))) : List Int := d.map Prod.fst

/-- The column keys of an inner dictionary. -/
def colKeys (inner : List (Int × Int)) : List Int := inner.map Prod.fst

/-- Dictionary well-formedness: unique row keys and unique column keys in
each inner dictionary.  Every state reachable through the Python class
satisfies this because Python dict keys are unique. -/
def WF (m : SparseMatrix) : Prop :=
  (rowKeys m.data).Nodup ∧ ∀ p ∈ m.data, (colKeys p.2).Nodup

/-- `WF` plus: no row maps to an empty inner dictionary.  The Python code
only ever creates a row entry together with a column entry
(`set_element`), so reachable states also satisfy this. -/
def WFNE (m : SparseMatrix) : Prop :=
  WF m ∧ ∀ p ∈ m.data, p.2 ≠ []

instance : DecidablePred WF := fun m => by
  unfold WF; infer_instance

instance : DecidablePred WFNE := fun m => by
  unfold WFNE; infer_instance

/-- `add`: dimension check, then copy `self`'s entries, then accumulate
`other`'s entries on top, exactly as the two nested loops in the source. -/
def SparseMatrix.add (self other : SparseMatrix) : Except MatrixError SparseMatrix :=
  if self.rows ≠ other.rows ∨ self.cols ≠ other.cols then
    .error (.dimensionMismatch "Matrices must have the same dimensions for addition to perform")
  else
    let res0 : SparseMatrix := ⟨self.rows, self.cols, []⟩
    let res1 := self.data.foldl
      (fun res p => p.2.foldl
        (fun res q => res.set_element p.1 q.1 (self.get_element p.1 q.1)) res) res0
    let res2 := other.data.foldl
      (fun res p => p.2.foldl
        (fun res q =>
          res.set_element p.1 q.1 (res.get_element p.1 q.1 + other.get_element p.1 q.1)) res) res1
    .ok res2

/-- `subtract`: same structure as `add` with subtraction in the second
pass. -/
def SparseMatrix.subtract (self other : SparseMatrix) : Except MatrixError SparseMatrix :=
  if self.rows ≠ other.rows ∨ self.cols ≠ other.cols then
    .error (.dimensionMismatch "Matrices must have the same dimensions for subtraction to perform")
  else
    let res0 : SparseMatrix := ⟨self.rows, self.cols, []⟩
    let res1 := self.data.foldl
      (fun res p => p.2.foldl
        (fun res q => res.set_element p.1 q.1 (self.get_element p.1 q.1)) res) res0
    let res2 := other.data.foldl
      (fun res p => p.2.foldl
        (fun res q =>
          res.set_element p.1 q.1 (res.get_element p.1 q.1 - other.get_element p.1 q.1)) res) res1
    .ok res2

/-- The inner `k`-loop of `multiply`:
`sum_product = 0; for k in range(self.cols): sum_product += self.get_element(row, k) * matrix.get_element(k, col)`. -/
def dotProduct (a b : SparseMatrix) (i j : Int) : Int :=
  (List.range a.cols.toNat).foldl
    (fun acc (k : Nat) => acc + a.get_element i (k : Int) * b.get_element (k : Int) j) 0

/-- `multiply`: dimension check, then for every row key present in
`self.data` and every output column index in `range(matrix.cols)` compute
the dot product, storing it only when it is nonzero. -/
def SparseMatrix.multiply (self other : SparseMatrix) : Except MatrixError SparseMatrix :=
  if self.cols ≠ other.rows then
    .error (.dimensionMismatch "Number of columns in the first matrix must be equal to the number of rows in the second matrix for multiplication to perform")
  else
    let res0 : SparseMatrix := ⟨self.rows, other.cols, []⟩
    let res1 := self.data.foldl
      (fun res p => (List.range other.cols.toNat).foldl
        (fun res (colN : Nat) =>
          let s := dotProduct self other p.1 (colN : Int)
          if s ≠ 0 then res.set_element p.1 (colN : Int) s else res) res) res0
    .ok res1

/-! ## Serialization (`__str__`) and deserialization (`from_file` body)

`from_file` opens a file and parses its contents; everything after the
`open` is pure string processing, modelled here as `fromText` on the file
contents.  All string work happens on `List Char` with structurally
recursive helpers mirroring the Python string primitives used by the
source (`str.strip`, `str.split`, `int(...)`, slicing, f-strings). -/

/-- The whitespace characters removed by Python `str.strip()`. -/
def isSpace (c : Char) : Bool :=
  c = ' ' || c = '\t' || c = '\n' || c = '\r' || c = '\x0b' || c = '\x0c'

/-- Python `str.strip()`: remove leading and trailing whitespace. -/
def trimChars (cs : List Char) : List Char :=
  ((cs.dropWhile isSpace).reverse.dropWhile isSpace).reverse

/-- Python `str.split(sep)` for a one-character separator: always returns
at least one (possibly empty) field. -/
def splitOnChar (sep : Char) : List Char → List (List Char)
  | [] => [[]]
  | c :: cs =>
    match splitOnChar sep cs with
    | [] => [[]]
    | g :: gs => if c = sep then [] :: g :: gs else (c :: g) :: gs

/-- Element at index `i` of a list, `none` past the end (Python indexing
`lines[i]`, with `none` standing for `IndexError`). -/
def nth {α : Type} : List α → Nat → Option α
  | [], _ => none
  | x :: _, 0 => some x
  | _ :: xs, n + 1 => nth xs n

/-- Decimal value of a digit-character list (the accumulation `int`
performs once the token is validated). -/
def digitsVal (cs : List Char) : Nat :=
  cs.foldl (fun a c => a * 10 + (c.toNat - 48)) 0

/-- Parse a nonempty all-digit token to a natural number; `none`
otherwise. -/
def parseDigits (cs : List Char) : Option Nat :=
  if cs ≠ [] ∧ cs.all (·.isDigit) then some (digitsVal cs) else none

/-- Python `int(token)`: strip whitespace, accept one optional sign
followed by a nonempty digit string; `none` models `ValueError`. -/
def parseIntChars (cs : List Char) : Option Int :=
  match trimChars cs with
  | [] => none
  | c :: rest =>
    if c = '-' then (parseDigits rest).map (fun n => -(n : Int))
    else if c = '+' then (parseDigits rest).map (fun n => (n : Int))
    else (parseDigits (c :: rest)).map (fun n => (n : Int))

/-- The nonblank stripped lines of the input:
`[line.strip() for line in file if line.strip()]`. -/
def linesOf (cs : List Char) : List (List Char) :=
  ((splitOnChar '\n' cs).map trimChars).filter (fun l => !l.isEmpty)

/-- `int(lines[i].split('=')[1])`, with `none` for both the `IndexError`
and the `ValueError` cases (the source catches both together). -/
def parseHeaderLine (lines : List (List Char)) (i : Nat) : Option Int :=
  match nth lines i with
  | none => none
  | some l =>
    match nth (splitOnChar '=' l) 1 with
    | none => none
    | some tok => parseIntChars tok

/-- `row, col, value = map(int, line[1:-1].split(','))`: strip one
leading and one trailing character, split on `','`, and require exactly
three integer tokens. -/
def parseEntry (line : List Char) : Option (Int × Int × Int) :=
  match splitOnChar ',' ((line.drop 1).dropLast) with
  | [a, b, c] =>
    match parseIntChars a, parseIntChars b, parseIntChars c with
    | some r, some co, some v => some (r, co, v)
    | _, _, _ => none
  | _ => none

/-- The entry loop of `from_file`: parse each remaining line and
`set_element` it, aborting with the format error on the first bad line. -/
def parseEntries : List (List Char) → SparseMatrix → Except MatrixError SparseMatrix
  | [], m => .ok m
  | l :: rest, m =>
    match parseEntry l with
    | none => .error (.formatError "Input file has wrong format")
    | some (r, c, v) => parseEntries rest (m.set_element r c v)

/-- Parse from the nonblank stripped lines: line 0 is `rows=<int>`,
line 1 is `cols=<int>`, all later lines are entries. -/
def fromTextLines (lines : List (List Char)) : Except MatrixError SparseMatrix :=
  match parseHeaderLine lines 0, parseHeaderLine lines 1 with
  | some r, some c => parseEntries (lines.drop 2) ⟨r, c, []⟩
  | _, _ => .error (.formatError "Input file has wrong format")

/-- `from_text`: the pure body of `from_file` applied to the file
contents. -/
def fromText (s : String) : Except MatrixError SparseMatrix :=
  fromTextLines (linesOf s.data)

/-- Decimal digit characters of a positive natural, most significant
first (the digits `str(n)` produces). -/
def natCharsAux (n : Nat) (acc : List Char) : List Char :=
  if h : n = 0 then acc else natCharsAux (n / 10) (Nat.digitChar (n % 10) :: acc)
termination_by n
decreasing_by exact Nat.div_lt_self (Nat.pos_of_ne_zero h) (by decide)

/-- `str(n)` for a natural number. -/
def natChars (n : Nat) : List Char :=
  if n = 0 then ['0'] else natCharsAux n []

/-- `str(i)` for an integer: a `'-'` sign followed by the digits when
negative. -/
def intChars (i : Int) : List Char :=
  if i < 0 then '-' :: natChars (-i).toNat else natChars i.toNat

/-- One serialized entry line body: `f"({row}, {col}, {value})"`. -/
def entryLine (r c v : Int) : List Char :=
  '(' :: (intChars r ++ [',', ' '] ++ intChars c ++ [',', ' '] ++ intChars v ++ [')'])

/-- The serialized text of one row of the outer dictionary: one entry
line (plus newline) per stored column. -/
def rowText (r : Int) : List (Int × Int) → List Char
  | [] => []
  | q :: rest => (entryLine r q.1 q.2 ++ ['\n']) ++ rowText r rest

/-- The serialized entry lines of the whole dictionary, in iteration
order. -/
def entriesText : List (Int × List (Int × Int)) → List Char
  | [] => []
  | p :: rest => rowText p.1 p.2 ++ entriesText rest

/-- The line `f"rows={rows}"`. -/
def headerRowChars (r : Int) : List Char := ['r', 'o', 'w', 's'] ++ '=' :: intChars r

/-- The line `f"cols={cols}"`. -/
def headerColChars (c : Int) : List Char := ['c', 'o', 'l', 's'] ++ '=' :: intChars c

/-- `__str__`: `f"rows={self.rows}\ncols={self.cols}\n"` followed by one
`f"({row}, {col}, {value})\n"` line per stored entry, in iteration
order. -/
def toTextChars (m : SparseMatrix) : List Char :=
  headerRowChars m.rows ++ '\n' :: (headerColChars m.cols ++ '\n' :: entriesText m.data)

/-- `str(matrix)` as a `String`. -/
def toText (m : SparseMatrix) : String :=
  String.mk (toTextChars m)

/-! ## Basic lemmas about lookup and update -/

theorem assocFind_mem {α : Type} {k : Int} {d : List (Int × α)} {v : α}
    (h : assocFind k d = some v) : (k, v) ∈ d := by
  induction d with
  | nil => simp [assocFind] at h
  | cons p rest ih =>
    obtain ⟨pk, pv⟩ := p
    rw [assocFind] at h
    split at h
    · rename_i hp
      cases hp
      cases h
      exact List.mem_cons_self _ _
    · exact List.mem_cons_of_mem _ (ih h)

theorem assocFind_of_mem_nodup {α : Type} {k : Int} {d : List (Int × α)} {v : α}
    (hnd : (d.map Prod.fst).Nodup) (h : (k, v) ∈ d) : assocFind k d = some v := by
  induction d with
  | nil => simp at h
  | cons p rest ih =>
    simp only [List.map_cons, List.nodup_cons] at hnd
    rcases List.mem_cons.mp h with h1 | h1
    · rw [← h1, assocFind]
      simp
    · have hk : k ∈ rest.map Prod.fst := List.mem_map.mpr ⟨(k, v), h1, rfl⟩
      have hne : p.1 ≠ k := fun he => hnd.1 (he ▸ hk)
      rw [assocFind, if_neg hne]
      exact ih hnd.2 h1

theorem assocFind_isSome_of_mem {α : Type} {k : Int} {d : List (Int × α)} {v : α}
    (h : (k, v) ∈ d) : (assocFind k d).isSome = true := by
  induction d with
  | nil => simp at h
  | cons p rest ih =>
    rw [assocFind]
    split
    · rfl
    · rename_i hne
      rcases List.mem_cons.mp h with h1 | h1
      · exact absurd (by rw [← h1]) hne
      · exact ih h1

theorem assocFind_eq_none {α : Type} {k : Int} {d : List (Int × α)}
    (h : k ∉ d.map Prod.fst) : assocFind k d = none := by
  induction d with
  | nil => rfl
  | cons p rest ih =>
    simp only [List.map_cons, List.mem_cons] at h
    push_neg at h
    rw [assocFind, if_neg (fun he => h.1 he.symm)]
    exact ih h.2

theorem assocFind_setInner_self (inner : List (Int × Int)) (c v : Int) :
    assocFind c (setInner inner c v) = some v := by
  induction inner with
  | nil => simp [setInner, assocFind]
  | cons q rest ih =>
    obtain ⟨qk, qv⟩ := q
    by_cases hq : qk = c
    · subst hq
      simp [setInner, assocFind]
    · simp [setInner, hq, assocFind, ih]

theorem assocFind_setInner_ne (inner : List (Int × Int)) (c v c' : Int) (h : c' ≠ c) :
    assocFind c' (setInner inner c v) = assocFind c' inner := by
  have hcc : ¬ c = c' := fun he => h he.symm
  induction inner with
  | nil => simp [setInner, assocFind, hcc]
  | cons q rest ih =>
    obtain ⟨qk, qv⟩ := q
    by_cases hq : qk = c
    · subst hq
      simp [setInner, assocFind, hcc]
    · by_cases hq' : qk = c'
      · subst hq'
        simp [setInner, assocFind, fun he : qk = c => hq he]
      · simp [setInner, hq, assocFind, hq', ih]

theorem assocFind_setOuter_self (d : List (Int × List (Int × Int))) (r c v : Int) :
    assocFind r (setOuter d r c v) =
      some (match assocFind r d with
            | none => [(c, v)]
            | some inner => setInner inner c v) := by
  induction d with
  | nil => simp [setOuter, assocFind]
  | cons p rest ih =>
    obtain ⟨pk, pv⟩ := p
    by_cases hp : pk = r
    · subst hp
      simp [setOuter, assocFind]
    · simp [setOuter, hp, assocFind, ih]

theorem assocFind_setOuter_ne (d : List (Int × List (Int × Int))) (r c v r' : Int)
    (h : r' ≠ r) : assocFind r' (setOuter d r c v) = assocFind r' d := by
  have hrr : ¬ r = r' := fun he => h he.symm
  induction d with
  | nil => simp [setOuter, assocFind, hrr]
  | cons p rest ih =>
    obtain ⟨pk, pv⟩ := p
    by_cases hp : pk = r
    · subst hp
      simp [setOuter, assocFind, hrr]
    · by_cases hp' : pk = r'
      · subst hp'
        simp [setOuter, assocFind, fun he : pk = r => hp he]
      · simp [setOuter, hp, assocFind, hp', ih]

/-! ## get/set/stored lemmas -/

theorem rows_set_element (m : SparseMatrix) (r c v : Int) :
    (m.set_element r c v).rows = m.rows := rfl

theorem cols_set_element (m : SparseMatrix) (r c v : Int) :
    (m.set_element r c v).cols = m.cols := rfl

theorem get_element_set_self (m : SparseMatrix) (r c v : Int) :
    (m.set_element r c v).get_element r c = v := by
  unfold SparseMatrix.get_element SparseMatrix.set_element
  simp only
  rw [assocFind_setOuter_self]
  cases h : assocFind r m.data with
  | none => simp [assocFind]
  | some inner => simp [assocFind_setInner_self]

theorem get_element_set_ne (m : SparseMatrix) (r c v r' c' : Int)
    (h : ¬(r' = r ∧ c' = c)) :
    (m.set_element r c v).get_element r' c' = m.get_element r' c' := by
  unfold SparseMatrix.get_element SparseMatrix.set_element
  simp only
  by_cases hr : r' = r
  · subst hr
    have hc : c' ≠ c := fun he => h ⟨rfl, he⟩
    rw [assocFind_setOuter_self]
    have hcc : ¬ c = c' := fun he => hc he.symm
    cases hfind : assocFind r' m.data with
    | none => simp [assocFind, hcc]
    | some inner => simp [assocFind_setInner_ne inner c v c' hc]
  · rw [assocFind_setOuter_ne _ _ _ _ _ hr]

theorem storedB_set (m : SparseMatrix) (r c v r' c' : Int) :
    storedB (m.set_element r c v) r' c' = true ↔
      ((r' = r ∧ c' = c) ∨ storedB m r' c' = true) := by
  unfold storedB SparseMatrix.set_element
  simp only
  by_cases hr : r' = r
  · subst hr
    rw [assocFind_setOuter_self]
    by_cases hc : c' = c
    · subst hc
      cases hfind : assocFind r' m.data with
      | none => simp [assocFind]
      | some inner => simp [assocFind_setInner_self]
    · have hcc : ¬ c = c' := fun he => hc he.symm
      cases hfind : assocFind r' m.data with
      | none => simp [assocFind, hcc, hc]
      | some inner => simp [assocFind_setInner_ne inner c v c' hc, hc]
  · rw [assocFind_setOuter_ne _ _ _ _ _ hr]
    simp [hr]

theorem get_eq_zero_of_not_stored {m : SparseMatrix} {r c : Int}
    (h : storedB m r c = false) : m.get_element r c = 0 := by
  unfold storedB at h
  unfold SparseMatrix.get_element
  cases hfind : assocFind r m.data with
  | none => rfl
  | some inner =>
    rw [hfind] at h
    simp only at h
    cases hc : assocFind c inner with
    | none => simp [hfind, hc]
    | some v => rw [hc] at h; simp at h

/-! ## The coordinate lists iterated by the operator loops -/

/-- The `(row, col)` pairs of one row of the outer dictionary, in
iteration order. -/
def rowCoords (r : Int) (inner : List (Int × Int)) : List (Int × Int) :=
  inner.map (fun q => (r, q.1))

/-- All `(row, col)` pairs of the dictionary in iteration order: what the
two nested loops `for row in data: for col in data[row]:` visit. -/
def entryCoords : List (Int × List (Int × Int)) → List (Int × Int)
  | [] => []
  | p :: rest => rowCoords p.1 p.2 ++ entryCoords rest

theorem mem_entryCoords {i j : Int} {d : List (Int × List (Int × Int))} :
    (i, j) ∈ entryCoords d ↔ ∃ p ∈ d, p.1 = i ∧ ∃ q ∈ p.2, q.1 = j := by
  induction d with
  | nil => simp [entryCoords]
  | cons p rest ih =>
    simp only [entryCoords, List.mem_append, ih, rowCoords, List.mem_map, List.mem_cons]
    constructor
    · rintro (⟨q, hq, he⟩ | ⟨p', hp', he⟩)
      · injection he with he1 he2
        exact ⟨p, Or.inl rfl, he1, q, hq, he2⟩
      · exact ⟨p', Or.inr hp', he⟩
    · rintro ⟨p', hp' | hp', he⟩
      · subst hp'
        obtain ⟨he1, q, hq, he2⟩ := he
        exact Or.inl ⟨q, hq, by rw [he1, he2]⟩
      · exact Or.inr ⟨p', hp', he⟩

theorem mem_entryCoords_of_stored {m : SparseMatrix} {i j : Int}
    (h : storedB m i j = true) : (i, j) ∈ entryCoords m.data := by
  unfold storedB at h
  cases hfind : assocFind i m.data with
  | none => rw [hfind] at h; simp at h
  | some inner =>
    rw [hfind] at h
    simp only [Option.isSome_iff_exists] at h
    obtain ⟨v, hv⟩ := h
    exact mem_entryCoords.mpr
      ⟨(i, inner), assocFind_mem hfind, rfl, (j, v), assocFind_mem hv, rfl⟩

theorem stored_of_mem_entryCoords {m : SparseMatrix} {i j : Int}
    (hk : (rowKeys m.data).Nodup) (h : (i, j) ∈ entryCoords m.data) :
    storedB m i j = true := by
  obtain ⟨p, hp, hp1, q, hq, hq1⟩ := mem_entryCoords.mp h
  unfold storedB
  obtain ⟨pk, inner⟩ := p
  obtain ⟨qk, qv⟩ := q
  simp only at hp1 hq1
  subst hp1
  subst hq1
  rw [assocFind_of_mem_nodup hk hp]
  exact assocFind_isSome_of_mem hq

theorem entryCoords_nodup {d : List (Int × List (Int × Int))}
    (hk : (rowKeys d).Nodup) (hin : ∀ p ∈ d, (colKeys p.2).Nodup) :
    (entryCoords d).Nodup := by
  induction d with
  | nil => simp [entryCoords]
  | cons p rest ih =>
    simp only [rowKeys, List.map_cons, List.nodup_cons] at hk
    rw [entryCoords, List.nodup_append]
    refine ⟨?_, ih hk.2 (fun p' hp' => hin p' (List.mem_cons_of_mem _ hp')), ?_⟩
    · have hcols : (colKeys p.2).Nodup := hin p (List.mem_cons_self _ _)
      have hrw : rowCoords p.1 p.2 = (colKeys p.2).map (fun c => (p.1, c)) := by
        simp [rowCoords, colKeys, List.map_map, Function.comp]
      rw [hrw]
      have hinj : Function.Injective (fun c : Int => (p.1, c)) := by
        intro a b he
        injection he with he1 he2
      exact hcols.map hinj
    · intro x hx hx'
      obtain ⟨i, j⟩ := x
      simp only [rowCoords, List.mem_map] at hx
      obtain ⟨q, _, hq⟩ := hx
      injection hq with he1 he2
      obtain ⟨p', hp', hp1, _⟩ := mem_entryCoords.mp hx'
      have hmem : p'.1 ∈ List.map Prod.fst rest := List.mem_map.mpr ⟨p', hp', rfl⟩
      rw [hp1, ← he1] at hmem
      exact hk.1 hmem

/-! ## Generic lemmas about the fold each operator performs -/

/-- A fold of `set_element` calls whose stored value depends only on the
coordinates (first pass of add/subtract, and the multiply loop). -/
def applySets (g : Int → Int → Int) (res : SparseMatrix) (L : List (Int × Int)) :
    SparseMatrix :=
  L.foldl (fun res rc => res.set_element rc.1 rc.2 (g rc.1 rc.2)) res

theorem applySets_cons (g : Int → Int → Int) (res : SparseMatrix) (rc : Int × Int)
    (L : List (Int × Int)) :
    applySets g res (rc :: L) = applySets g (res.set_element rc.1 rc.2 (g rc.1 rc.2)) L := rfl

theorem applySets_append (g : Int → Int → Int) (res : SparseMatrix)
    (L1 L2 : List (Int × Int)) :
    applySets g res (L1 ++ L2) = applySets g (applySets g res L1) L2 := by
  simp [applySets, List.foldl_append]

theorem applySets_rows (g : Int → Int → Int) (res : SparseMatrix) (L : List (Int × Int)) :
    (applySets g res L).rows = res.rows := by
  induction L generalizing res with
  | nil => rfl
  | cons rc L ih => rw [applySets_cons, ih]; rfl

theorem applySets_cols (g : Int → Int → Int) (res : SparseMatrix) (L : List (Int × Int)) :
    (applySets g res L).cols = res.cols := by
  induction L generalizing res with
  | nil => rfl
  | cons rc L ih => rw [applySets_cons, ih]; rfl

theorem applySets_get (g : Int → Int → Int) (res : SparseMatrix) (L : List (Int × Int))
    (i j : Int) :
    (applySets g res L).get_element i j =
      if (i, j) ∈ L then g i j else res.get_element i j := by
  induction L generalizing res with
  | nil => simp [applySets]
  | cons rc L ih =>
    obtain ⟨a, b⟩ := rc
    rw [applySets_cons, ih]
    by_cases h2 : (i, j) ∈ L
    · simp [h2, List.mem_cons]
    · by_cases h1 : (i, j) = (a, b)
      · cases h1
        simp [h2, List.mem_cons, get_element_set_self]
      · have hne : ¬(i = a ∧ j = b) := fun hand => h1 (by rw [hand.1, hand.2])
        simp [h2, h1, List.mem_cons, get_element_set_ne _ _ _ _ _ _ hne]

theorem applySets_stored (g : Int → Int → Int) (res : SparseMatrix) (L : List (Int × Int))
    (i j : Int) :
    storedB (applySets g res L) i j = true ↔ (i, j) ∈ L ∨ storedB res i j = true := by
  induction L generalizing res with
  | nil => simp [applySets]
  | cons rc L ih =>
    obtain ⟨a, b⟩ := rc
    rw [applySets_cons, ih, storedB_set]
    simp only [List.mem_cons, Prod.mk.injEq]
    tauto

/-- A fold of `set_element` calls whose stored value combines the current
stored value with a function of the coordinates (second pass of
add/subtract). -/
def accumSets (op : Int → Int → Int) (g : Int → Int → Int) (res : SparseMatrix)
    (L : List (Int × Int)) : SparseMatrix :=
  L.foldl
    (fun res rc =>
      res.set_element rc.1 rc.2 (op (res.get_element rc.1 rc.2) (g rc.1 rc.2))) res

theorem accumSets_cons (op g : Int → Int → Int) (res : SparseMatrix) (rc : Int × Int)
    (L : List (Int × Int)) :
    accumSets op g res (rc :: L) =
      accumSets op g
        (res.set_element rc.1 rc.2 (op (res.get_element rc.1 rc.2) (g rc.1 rc.2))) L := rfl

theorem accumSets_rows (op g : Int → Int → Int) (res : SparseMatrix)
    (L : List (Int × Int)) : (accumSets op g res L).rows = res.rows := by
  induction L generalizing res with
  | nil => rfl
  | cons rc L ih => rw [accumSets_cons, ih]; rfl

theorem accumSets_cols (op g : Int → Int → Int) (res : SparseMatrix)
    (L : List (Int × Int)) : (accumSets op g res L).cols = res.cols := by
  induction L generalizing res with
  | nil => rfl
  | cons rc L ih => rw [accumSets_cons, ih]; rfl

theorem accumSets_get (op g : Int → Int → Int) (res : SparseMatrix)
    (L : List (Int × Int)) (i j : Int) (hnd : L.Nodup) :
    (accumSets op g res L).get_element i j =
      if (i, j) ∈ L then op (res.get_element i j) (g i j) else res.get_element i j := by
  induction L generalizing res with
  | nil => simp [accumSets]
  | cons rc L ih =>
    obtain ⟨a, b⟩ := rc
    rw [List.nodup_cons] at hnd
    rw [accumSets_cons, ih _ hnd.2]
    by_cases h1 : (i, j) = (a, b)
    · cases h1
      simp [hnd.1, List.mem_cons, get_element_set_self]
    · have hne : ¬(i = a ∧ j = b) := fun hand => h1 (by rw [hand.1, hand.2])
      by_cases h2 : (i, j) ∈ L
      · simp [h2, List.mem_cons, get_element_set_ne _ _ _ _ _ _ hne]
      · simp [h2, h1, List.mem_cons, get_element_set_ne _ _ _ _ _ _ hne]

theorem accumSets_stored (op g : Int → Int → Int) (res : SparseMatrix)
    (L : List (Int × Int)) (i j : Int) :
    storedB (accumSets op g res L) i j = true ↔ (i, j) ∈ L ∨ storedB res i j = true := by
  induction L generalizing res with
  | nil => simp [accumSets]
  | cons rc L ih =>
    obtain ⟨a, b⟩ := rc
    rw [accumSets_cons, ih, storedB_set]
    simp only [List.mem_cons, Prod.mk.injEq]
    tauto

/-- Bridging lemma: the nested `for row in data: for col in data[row]:`
fold equals the flat fold over `entryCoords`. -/
theorem nestedFold_eq {α : Type} (f : α → Int → Int → α)
    (d : List (Int × List (Int × Int))) (init : α) :
    d.foldl (fun a p => p.2.foldl (fun a q => f a p.1 q.1) a) init
      = (entryCoords d).foldl (fun a rc => f a rc.1 rc.2) init := by
  induction d generalizing init with
  | nil => rfl
  | cons p rest ih =>
    rw [List.foldl_cons, entryCoords, List.foldl_append, ih]
    congr 1
    simp [rowCoords, List.foldl_map]

/-! ## Well-formedness is preserved by updates -/

theorem mem_fst_setInner (inner : List (Int × Int)) (c v x : Int) :
    x ∈ (setInner inner c v).map Prod.fst ↔ x ∈ inner.map Prod.fst ∨ x = c := by
  induction inner with
  | nil => simp [setInner]
  | cons q rest ih =>
    obtain ⟨qk, qv⟩ := q
    by_cases hq : qk = c
    · subst hq
      simp only [setInner, List.map_cons, List.mem_cons]
      simp only [eq_self_iff_true, if_true, List.map_cons, List.mem_cons]
      tauto
    · simp only [setInner, if_neg hq, List.map_cons, List.mem_cons, ih]
      tauto

theorem nodup_fst_setInner (inner : List (Int × Int)) (c v : Int)
    (h : (inner.map Prod.fst).Nodup) : ((setInner inner c v).map Prod.fst).Nodup := by
  induction inner with
  | nil => simp [setInner]
  | cons q rest ih =>
    obtain ⟨qk, qv⟩ := q
    simp only [List.map_cons, List.nodup_cons] at h
    by_cases hq : qk = c
    · subst hq
      simp only [setInner, List.map_cons, List.nodup_cons]
      simpa only [eq_self_iff_true, if_true, List.map_cons, List.nodup_cons] using h
    · simp only [setInner, if_neg hq, List.map_cons, List.nodup_cons]
      refine ⟨fun hmem => ?_, ih h.2⟩
      rcases (mem_fst_setInner rest c v qk).mp hmem with h' | h'
      · exact h.1 h'
      · exact hq h'

theorem mem_fst_setOuter (d : List (Int × List (Int × Int))) (r c v : Int) (x : Int) :
    x ∈ (setOuter d r c v).map Prod.fst ↔ x ∈ d.map Prod.fst ∨ x = r := by
  induction d with
  | nil => simp [setOuter]
  | cons p rest ih =>
    obtain ⟨pk, pv⟩ := p
    by_cases hp : pk = r
    · subst hp
      simp only [setOuter, List.map_cons, List.mem_cons]
      simp only [eq_self_iff_true, if_true, List.map_cons, List.mem_cons]
      tauto
    · simp only [setOuter, if_neg hp, List.map_cons, List.mem_cons, ih]
      tauto

theorem nodup_fst_setOuter (d : List (Int × List (Int × Int))) (r c v : Int)
    (h : (d.map Prod.fst).Nodup) : ((setOuter d r c v).map Prod.fst).Nodup := by
  induction d with
  | nil => simp [setOuter]
  | cons p rest ih =>
    obtain ⟨pk, pv⟩ := p
    simp only [List.map_cons, List.nodup_cons] at h
    by_cases hp : pk = r
    · subst hp
      simp only [setOuter, List.map_cons, List.nodup_cons]
      simpa only [eq_self_iff_true, if_true, List.map_cons, List.nodup_cons] using h
    · simp only [setOuter, if_neg hp, List.map_cons, List.nodup_cons]
      refine ⟨fun hmem => ?_, ih h.2⟩
      rcases (mem_fst_setOuter rest r c v pk).mp hmem with h' | h'
      · exact h.1 h'
      · exact hp h'

theorem innerNodup_setOuter (d : List (Int × List (Int × Int))) (r c v : Int)
    (hin : ∀ p ∈ d, (colKeys p.2).Nodup) :
    ∀ p ∈ setOuter d r c v, (colKeys p.2).Nodup := by
  induction d with
  | nil =>
    intro p hp
    simp only [setOuter, List.mem_singleton] at hp
    subst hp
    simp [colKeys]
  | cons q rest ih =>
    obtain ⟨qk, qv⟩ := q
    by_cases hq : qk = r
    · subst hq
      simp only [setOuter, eq_self_iff_true, if_true]
      intro p hp
      rcases List.mem_cons.mp hp with rfl | hp
      · exact nodup_fst_setInner _ _ _ (hin _ (List.mem_cons_self _ _))
      · exact hin _ (List.mem_cons_of_mem _ hp)
    · simp only [setOuter, if_neg hq]
      intro p hp
      rcases List.mem_cons.mp hp with rfl | hp
      · exact hin _ (List.mem_cons_self _ _)
      · exact ih (fun p' hp' => hin _ (List.mem_cons_of_mem _ hp')) p hp

theorem WF_set_element {m : SparseMatrix} (r c v : Int) (h : WF m) :
    WF (m.set_element r c v) := by
  obtain ⟨h1, h2⟩ := h
  exact ⟨nodup_fst_setOuter _ _ _ _ h1, innerNodup_setOuter _ _ _ _ h2⟩

theorem WF_empty (rows cols : Int) : WF ⟨rows, cols, []⟩ := by
  constructor
  · simp [rowKeys]
  · intro p hp
    simp at hp

theorem WF_applySets (g : Int → Int → Int) (res : SparseMatrix) (L : List (Int × Int))
    (h : WF res) : WF (applySets g res L) := by
  induction L generalizing res with
  | nil => exact h
  | cons rc L ih => exact applySets_cons g res rc L ▸ ih _ (WF_set_element _ _ _ h)

theorem WF_accumSets (op g : Int → Int → Int) (res : SparseMatrix) (L : List (Int × Int))
    (h : WF res) : WF (accumSets op g res L) := by
  induction L generalizing res with
  | nil => exact h
  | cons rc L ih => exact accumSets_cons op g res rc L ▸ ih _ (WF_set_element _ _ _ h)

/-! ## Characterization of add and subtract -/

/-- The matrix the two passes of `add` build. -/
def addResult (a b : SparseMatrix) : SparseMatrix :=
  accumSets (fun x y => x + y) b.get_element
    (applySets a.get_element ⟨a.rows, a.cols, []⟩ (entryCoords a.data))
    (entryCoords b.data)

/-- The matrix the two passes of `subtract` build. -/
def subResult (a b : SparseMatrix) : SparseMatrix :=
  accumSets (fun x y => x - y) b.get_element
    (applySets a.get_element ⟨a.rows, a.cols, []⟩ (entryCoords a.data))
    (entryCoords b.data)

theorem copyPass_eq (a : SparseMatrix) (res : SparseMatrix) :
    a.data.foldl
        (fun res p => p.2.foldl
          (fun res q => res.set_element p.1 q.1 (a.get_element p.1 q.1)) res) res
      = applySets a.get_element res (entryCoords a.data) :=
  nestedFold_eq (fun res r c => res.set_element r c (a.get_element r c)) a.data res

theorem addPass_eq (b : SparseMatrix) (res : SparseMatrix) :
    b.data.foldl
        (fun res p => p.2.foldl
          (fun res q =>
            res.set_element p.1 q.1 (res.get_element p.1 q.1 + b.get_element p.1 q.1)) res) res
      = accumSets (fun x y => x + y) b.get_element res (entryCoords b.data) :=
  nestedFold_eq
    (fun res r c => res.set_element r c (res.get_element r c + b.get_element r c)) b.data res

theorem subPass_eq (b : SparseMatrix) (res : SparseMatrix) :
    b.data.foldl
        (fun res p => p.2.foldl
          (fun res q =>
            res.set_element p.1 q.1 (res.get_element p.1 q.1 - b.get_element p.1 q.1)) res) res
      = accumSets (fun x y => x - y) b.get_element res (entryCoords b.data) :=
  nestedFold_eq
    (fun res r c => res.set_element r c (res.get_element r c - b.get_element r c)) b.data res

theorem add_eq_ok {a b : SparseMatrix} (hr : a.rows = b.rows) (hc : a.cols = b.cols) :
    a.add b = .ok (addResult a b) := by
  unfold SparseMatrix.add
  rw [if_neg (by simp [hr, hc])]
  show Except.ok
      (b.data.foldl
        (fun res p => p.2.foldl
          (fun res q =>
            res.set_element p.1 q.1 (res.get_element p.1 q.1 + b.get_element p.1 q.1)) res)
        (a.data.foldl
          (fun res p => p.2.foldl
            (fun res q => res.set_element p.1 q.1 (a.get_element p.1 q.1)) res)
          ⟨a.rows, a.cols, []⟩))
    = Except.ok (addResult a b)
  rw [addPass_eq, copyPass_eq]
  rfl

theorem sub_eq_ok {a b : SparseMatrix} (hr : a.rows = b.rows) (hc : a.cols = b.cols) :
    a.subtract b = .ok (subResult a b) := by
  unfold SparseMatrix.subtract
  rw [if_neg (by simp [hr, hc])]
  show Except.ok
      (b.data.foldl
        (fun res p => p.2.foldl
          (fun res q =>
            res.set_element p.1 q.1 (res.get_element p.1 q.1 - b.get_element p.1 q.1)) res)
        (a.data.foldl
          (fun res p => p.2.foldl
            (fun res q => res.set_element p.1 q.1 (a.get_element p.1 q.1)) res)
          ⟨a.rows, a.cols, []⟩))
    = Except.ok (subResult a b)
  rw [subPass_eq, copyPass_eq]
  rfl

theorem get_element_empty (rows cols r c : Int) :
    SparseMatrix.get_element ⟨rows, cols, []⟩ r c = 0 := rfl

theorem storedB_empty (rows cols r c : Int) :
    storedB ⟨rows, cols, []⟩ r c = false := rfl

theorem not_stored_of_not_mem {m : SparseMatrix} {i j : Int}
    (h : (i, j) ∉ entryCoords m.data) : storedB m i j = false := by
  cases hs : storedB m i j
  · rfl
  · exact absurd (mem_entryCoords_of_stored hs) h

theorem get_zero_of_not_mem {m : SparseMatrix} {i j : Int}
    (h : (i, j) ∉ entryCoords m.data) : m.get_element i j = 0 :=
  get_eq_zero_of_not_stored (not_stored_of_not_mem h)

theorem addResult_rows (a b : SparseMatrix) : (addResult a b).rows = a.rows := by
  simp [addResult, accumSets_rows, applySets_rows]

theorem addResult_cols (a b : SparseMatrix) : (addResult a b).cols = a.cols := by
  simp [addResult, accumSets_cols, applySets_cols]

theorem subResult_rows (a b : SparseMatrix) : (subResult a b).rows = a.rows := by
  simp [subResult, accumSets_rows, applySets_rows]

theorem subResult_cols (a b : SparseMatrix) : (subResult a b).cols = a.cols := by
  simp [subResult, accumSets_cols, applySets_cols]

theorem WF_addResult (a b : SparseMatrix) : WF (addResult a b) :=
  WF_accumSets _ _ _ _ (WF_applySets _ _ _ (WF_empty _ _))

theorem addResult_get (a b : SparseMatrix) (hB : WF b) (r c : Int) :
    (addResult a b).get_element r c = a.get_element r c + b.get_element r c := by
  rw [addResult, accumSets_get _ _ _ _ r c (entryCoords_nodup hB.1 hB.2), applySets_get]
  by_cases hb : (r, c) ∈ entryCoords b.data
  · by_cases ha : (r, c) ∈ entryCoords a.data
    · simp [ha, hb, get_element_empty]
    · simp [ha, hb, get_element_empty, get_zero_of_not_mem ha]
  · by_cases ha : (r, c) ∈ entryCoords a.data
    · simp [ha, hb, get_zero_of_not_mem hb]
    · simp [ha, hb, get_element_empty, get_zero_of_not_mem ha, get_zero_of_not_mem hb]

theorem subResult_get (a b : SparseMatrix) (hB : WF b) (r c : Int) :
    (subResult a b).get_element r c = a.get_element r c - b.get_element r c := by
  rw [subResult, accumSets_get _ _ _ _ r c (entryCoords_nodup hB.1 hB.2), applySets_get]
  by_cases hb : (r, c) ∈ entryCoords b.data
  · by_cases ha : (r, c) ∈ entryCoords a.data
    · simp [ha, hb, get_element_empty]
    · simp [ha, hb, get_element_empty, get_zero_of_not_mem ha]
  · by_cases ha : (r, c) ∈ entryCoords a.data
    · simp [ha, hb, get_zero_of_not_mem hb]
    · simp [ha, hb, get_element_empty, get_zero_of_not_mem ha, get_zero_of_not_mem hb]

theorem addResult_stored (a b : SparseMatrix) (hA : WF a) (hB : WF b) (r c : Int) :
    storedB (addResult a b) r c = true ↔
      (storedB a r c = true ∨ storedB b r c = true) := by
  rw [addResult, accumSets_stored, applySets_stored]
  have ha : (r, c) ∈ entryCoords a.data ↔ storedB a r c = true :=
    ⟨stored_of_mem_entryCoords hA.1, mem_entryCoords_of_stored⟩
  have hb : (r, c) ∈ entryCoords b.data ↔ storedB b r c = true :=
    ⟨stored_of_mem_entryCoords hB.1, mem_entryCoords_of_stored⟩
  rw [ha, hb, storedB_empty]
  simp only [Bool.false_eq_true, or_false]
  tauto

/-! ## Characterization of multiply -/

/-- The coordinates at which one row's loop body actually stores a value:
the output columns whose dot product is nonzero. -/
def multCoordsRow (a b : SparseMatrix) (r : Int) : List (Int × Int) :=
  (List.range b.cols.toNat).filterMap
    (fun (jn : Nat) => if dotProduct a b r (jn : Int) ≠ 0 then some (r, (jn : Int)) else none)

/-- Those coordinates accumulated over the rows of `a.data`. -/
def multCoordsAux (a b : SparseMatrix) : List (Int × List (Int × Int)) → List (Int × Int)
  | [] => []
  | p :: rest => multCoordsRow a b p.1 ++ multCoordsAux a b rest

/-- All coordinates the multiply loop stores to. -/
def multCoords (a b : SparseMatrix) : List (Int × Int) := multCoordsAux a b a.data

/-- The matrix `multiply` builds. -/
def multResult (a b : SparseMatrix) : SparseMatrix :=
  applySets (dotProduct a b) ⟨a.rows, b.cols, []⟩ (multCoords a b)

theorem multInnerFold_eq (a b : SparseMatrix) (r : Int) (js : List Nat)
    (res : SparseMatrix) :
    js.foldl (fun res (colN : Nat) =>
        if dotProduct a b r (colN : Int) ≠ 0 then
          res.set_element r (colN : Int) (dotProduct a b r (colN : Int))
        else res) res
      = applySets (dotProduct a b) res
          (js.filterMap
            (fun (jn : Nat) =>
              if dotProduct a b r (jn : Int) ≠ 0 then some (r, (jn : Int)) else none)) := by
  induction js generalizing res with
  | nil => rfl
  | cons j js ih =>
    by_cases hd : dotProduct a b r (j : Int) ≠ 0
    · simp only [List.foldl_cons, List.filterMap_cons, if_pos hd]
      rw [applySets_cons]
      exact ih _
    · simp only [List.foldl_cons, List.filterMap_cons, if_neg hd]
      exact ih _

theorem multOuterFold_eq (a b : SparseMatrix) (d : List (Int × List (Int × Int)))
    (res : SparseMatrix) :
    d.foldl (fun res p =>
        (List.range b.cols.toNat).foldl (fun res (colN : Nat) =>
          if dotProduct a b p.1 (colN : Int) ≠ 0 then
            res.set_element p.1 (colN : Int) (dotProduct a b p.1 (colN : Int))
          else res) res) res
      = applySets (dotProduct a b) res (multCoordsAux a b d) := by
  induction d generalizing res with
  | nil => rfl
  | cons p rest ih =>
    rw [List.foldl_cons, multCoordsAux, applySets_append, ih]
    congr 1
    exact multInnerFold_eq a b p.1 _ res

theorem mult_eq_ok {a b : SparseMatrix} (h : a.cols = b.rows) :
    a.multiply b = .ok (multResult a b) := by
  unfold SparseMatrix.multiply
  rw [if_neg (by simp [h])]
  show Except.ok
      (a.data.foldl (fun res p =>
        (List.range b.cols.toNat).foldl (fun res (colN : Nat) =>
          if dotProduct a b p.1 (colN : Int) ≠ 0 then
            res.set_element p.1 (colN : Int) (dotProduct a b p.1 (colN : Int))
          else res) res) ⟨a.rows, b.cols, []⟩)
    = Except.ok (multResult a b)
  rw [multOuterFold_eq]
  rfl

theorem mem_multCoordsRow {a b : SparseMatrix} {r i j : Int} :
    (i, j) ∈ multCoordsRow a b r ↔
      i = r ∧ ∃ jn : Nat, jn < b.cols.toNat ∧ j = (jn : Int) ∧ dotProduct a b r j ≠ 0 := by
  unfold multCoordsRow
  rw [List.mem_filterMap]
  constructor
  · rintro ⟨jn, hjn, hsome⟩
    rw [List.mem_range] at hjn
    split_ifs at hsome with hd
    · injection hsome with hpair
      injection hpair with h1 h2
      rw [h2] at hd
      exact ⟨h1.symm, jn, hjn, h2.symm, hd⟩
  · rintro ⟨rfl, jn, hjn, rfl, hd⟩
    refine ⟨jn, List.mem_range.mpr hjn, ?_⟩
    rw [if_pos hd]

theorem mem_multCoordsAux {a b : SparseMatrix} {i j : Int}
    {d : List (Int × List (Int × Int))} :
    (i, j) ∈ multCoordsAux a b d ↔
      (∃ p ∈ d, p.1 = i) ∧
        ∃ jn : Nat, jn < b.cols.toNat ∧ j = (jn : Int) ∧ dotProduct a b i j ≠ 0 := by
  induction d with
  | nil => simp [multCoordsAux]
  | cons p rest ih =>
    simp only [multCoordsAux, List.mem_append, mem_multCoordsRow, ih, List.mem_cons]
    constructor
    · rintro (⟨rfl, hex⟩ | ⟨⟨p', hp', he⟩, hex⟩)
      · exact ⟨⟨p, Or.inl rfl, rfl⟩, hex⟩
      · exact ⟨⟨p', Or.inr hp', he⟩, hex⟩
    · rintro ⟨⟨p', hp' | hp', he⟩, hex⟩
      · subst hp'
        exact Or.inl ⟨he.symm, by rw [he]; exact hex⟩
      · exact Or.inr ⟨⟨p', hp', he⟩, hex⟩

theorem dot_zero_of_row_absent {a : SparseMatrix} (b : SparseMatrix) {i : Int}
    (h : ∀ p ∈ a.data, p.1 ≠ i) (j : Int) : dotProduct a b i j = 0 := by
  have hf : assocFind i a.data = none := by
    apply assocFind_eq_none
    intro hmem
    obtain ⟨p, hp, he⟩ := List.mem_map.mp hmem
    exact h p hp he
  have hg : ∀ k : Int, a.get_element i k = 0 := by
    intro k
    unfold SparseMatrix.get_element
    rw [hf]
  have hfold : ∀ (l : List Nat) (init : Int),
      l.foldl (fun acc (k : Nat) => acc + a.get_element i (k : Int) * b.get_element (k : Int) j) init
        = init := by
    intro l
    induction l with
    | nil => intro init; rfl
    | cons x xs ih =>
      intro init
      rw [List.foldl_cons, hg, zero_mul, add_zero]
      exact ih init
  exact hfold _ 0

theorem multResult_rows (a b : SparseMatrix) : (multResult a b).rows = a.rows := by
  simp [multResult, applySets_rows]

theorem multResult_cols (a b : SparseMatrix) : (multResult a b).cols = b.cols := by
  simp [multResult, applySets_cols]

/-! ## Claim theorems: the arithmetic operators -/

/-- C1: `A (m×n).multiply(B (p×q))` fails with `DimensionMismatch` iff
`n ≠ p`; otherwise it returns an `m×q` matrix in which every in-range
coordinate holds the dot product `Σ_k A.get(i,k)*B.get(k,j)`, and
coordinates whose dot product is 0 have no stored entry. -/
theorem claim_C1 (A B : SparseMatrix) :
    ((∃ msg, A.multiply B = .error (.dimensionMismatch msg)) ↔ A.cols ≠ B.rows) ∧
    (A.cols = B.rows →
      ∃ C, A.multiply B = .ok C ∧ C.rows = A.rows ∧ C.cols = B.cols ∧
        ∀ i j : Int, 0 ≤ i → i < C.rows → 0 ≤ j → j < C.cols →
          C.get_element i j = dotProduct A B i j ∧
            (dotProduct A B i j = 0 → storedB C i j = false)) := by
  constructor
  · constructor
    · rintro ⟨msg, herr⟩ heq
      rw [mult_eq_ok heq] at herr
      cases herr
    · intro hne
      refine ⟨"Number of columns in the first matrix must be equal to the number of rows in the second matrix for multiplication to perform", ?_⟩
      unfold SparseMatrix.multiply
      rw [if_pos hne]
  · intro heq
    refine ⟨multResult A B, mult_eq_ok heq, multResult_rows A B, multResult_cols A B, ?_⟩
    intro i j hi0 hi1 hj0 hj1
    rw [multResult_cols] at hj1
    have hchar : (multResult A B).get_element i j =
        if (i, j) ∈ multCoords A B then dotProduct A B i j else 0 := by
      rw [multResult, applySets_get, get_element_empty]
    constructor
    · by_cases hm : (i, j) ∈ multCoords A B
      · rw [hchar, if_pos hm]
      · rw [hchar, if_neg hm]
        rw [multCoords, mem_multCoordsAux] at hm
        by_cases hrow : ∃ p ∈ A.data, p.1 = i
        · by_contra hdz
          have hdz' : dotProduct A B i j ≠ 0 := fun he => hdz he.symm
          have hjn : j.toNat < B.cols.toNat := by omega
          exact hm ⟨hrow, j.toNat, hjn, by omega, hdz'⟩
        · push_neg at hrow
          rw [dot_zero_of_row_absent B hrow j]
    · intro hdot
      cases hs : storedB (multResult A B) i j
      · rfl
      · exfalso
        rw [multResult] at hs
        rcases (applySets_stored _ _ _ i j).mp hs with hm | hm
        · rw [multCoords, mem_multCoordsAux] at hm
          obtain ⟨-, jn, -, -, hne⟩ := hm
          exact hne hdot
        · rw [storedB_empty] at hm
          cases hm

/-- C1 witness: the spec's worked example, a 2×2 product that succeeds. -/
theorem claim_C1_witness :
    ∃ C, SparseMatrix.multiply ⟨2, 2, [(0, [(0, 1)]), (1, [(1, 2)])]⟩
        ⟨2, 2, [(0, [(0, 3), (1, 4)])]⟩ = .ok C ∧ C.rows = 2 ∧ C.cols = 2 := by
  obtain ⟨C, h1, h2, h3, _⟩ :=
    (claim_C1 ⟨2, 2, [(0, [(0, 1)]), (1, [(1, 2)])]⟩ ⟨2, 2, [(0, [(0, 3), (1, 4)])]⟩).2 rfl
  exact ⟨C, h1, h2, h3⟩

/-- C2: for equal-dimension matrices, `add` succeeds with the same
dimensions, pointwise sums at every in-range coordinate, and a stored key
set that is exactly the union of the operands' stored key sets (no
pruning of zero sums). -/
theorem claim_C2 (A B : SparseMatrix) (hr : A.rows = B.rows) (hc : A.cols = B.cols)
    (hA : WF A) (hB : WF B) :
    ∃ C, A.add B = .ok C ∧ C.rows = A.rows ∧ C.cols = A.cols ∧
      (∀ r c : Int, 0 ≤ r → r < A.rows → 0 ≤ c → c < A.cols →
        C.get_element r c = A.get_element r c + B.get_element r c) ∧
      (∀ r c : Int, storedB C r c = true ↔
        (storedB A r c = true ∨ storedB B r c = true)) :=
  ⟨addResult A B, add_eq_ok hr hc, addResult_rows A B, addResult_cols A B,
    fun r c _ _ _ _ => addResult_get A B hB r c,
    fun r c => addResult_stored A B hA hB r c⟩

/-- C2 witness: the spec's worked example sum. -/
theorem claim_C2_witness :
    ∃ C, SparseMatrix.add ⟨2, 2, [(0, [(0, 1)]), (1, [(1, 2)])]⟩
        ⟨2, 2, [(0, [(0, 3), (1, 4)])]⟩ = .ok C ∧ C.rows = 2 ∧ C.cols = 2 := by
  obtain ⟨C, h1, h2, h3, _⟩ :=
    claim_C2 ⟨2, 2, [(0, [(0, 1)]), (1, [(1, 2)])]⟩ ⟨2, 2, [(0, [(0, 3), (1, 4)])]⟩
      rfl rfl (by decide) (by decide)
  exact ⟨C, h1, h2, h3⟩

/-- C3: for equal-dimension matrices `subtract` succeeds with the same
dimensions and pointwise differences at every in-range coordinate
(including keys stored only in `B`, where `A`'s implicit value is 0), and
it fails with `DimensionMismatch` when the dimensions differ. -/
theorem claim_C3 (A B : SparseMatrix) (hA : WF A) (hB : WF B) :
    (A.rows = B.rows ∧ A.cols = B.cols →
      ∃ C, A.subtract B = .ok C ∧ C.rows = A.rows ∧ C.cols = A.cols ∧
        ∀ r c : Int, 0 ≤ r → r < A.rows → 0 ≤ c → c < A.cols →
          C.get_element r c = A.get_element r c - B.get_element r c) ∧
    (¬(A.rows = B.rows ∧ A.cols = B.cols) →
      ∃ msg, A.subtract B = .error (.dimensionMismatch msg)) := by
  constructor
  · rintro ⟨hr, hc⟩
    exact ⟨subResult A B, sub_eq_ok hr hc, subResult_rows A B, subResult_cols A B,
      fun r c _ _ _ _ => subResult_get A B hB r c⟩
  · intro h
    refine ⟨"Matrices must have the same dimensions for subtraction to perform", ?_⟩
    unfold SparseMatrix.subtract
    rw [if_pos (by tauto)]

/-- C3 witness: subtraction where one key lives only in the second
operand. -/
theorem claim_C3_witness :
    ∃ C, SparseMatrix.subtract ⟨2, 2, [(0, [(0, 1)]), (1, [(1, 2)])]⟩
        ⟨2, 2, [(0, [(0, 3), (1, 4)])]⟩ = .ok C ∧ C.rows = 2 ∧ C.cols = 2 := by
  obtain ⟨C, h1, h2, h3, _⟩ :=
    (claim_C3 ⟨2, 2, [(0, [(0, 1)]), (1, [(1, 2)])]⟩ ⟨2, 2, [(0, [(0, 3), (1, 4)])]⟩
      (by decide) (by decide)).1 ⟨rfl, rfl⟩
  exact ⟨C, h1, h2, h3⟩

/-- C6: `A.add(B).subtract(B)` succeeds and is value-equal to `A`: same
dimensions and the same `get` at every in-range coordinate. -/
theorem claim_C6 (A B : SparseMatrix) (hr : A.rows = B.rows) (hc : A.cols = B.cols)
    (hA : WF A) (hB : WF B) :
    ∃ C S, A.add B = .ok C ∧ C.subtract B = .ok S ∧ S.rows = A.rows ∧ S.cols = A.cols ∧
      ∀ r c : Int, 0 ≤ r → r < A.rows → 0 ≤ c → c < A.cols →
        S.get_element r c = A.get_element r c := by
  refine ⟨addResult A B, subResult (addResult A B) B, add_eq_ok hr hc,
    sub_eq_ok (by rw [addResult_rows]; exact hr) (by rw [addResult_cols]; exact hc),
    ?_, ?_, ?_⟩
  · rw [subResult_rows, addResult_rows]
  · rw [subResult_cols, addResult_cols]
  · intro r c _ _ _ _
    rw [subResult_get _ _ hB, addResult_get _ _ hB]
    ring

/-- C6 witness: the round trip on the spec's worked example. -/
theorem claim_C6_witness :
    ∃ C S, SparseMatrix.add ⟨2, 2, [(0, [(0, 1)]), (1, [(1, 2)])]⟩
        ⟨2, 2, [(0, [(0, 3), (1, 4)])]⟩ = .ok C ∧
      C.subtract ⟨2, 2, [(0, [(0, 3), (1, 4)])]⟩ = .ok S ∧ S.rows = 2 ∧ S.cols = 2 := by
  obtain ⟨C, S, h1, h2, h3, h4, _⟩ :=
    claim_C6 ⟨2, 2, [(0, [(0, 1)]), (1, [(1, 2)])]⟩ ⟨2, 2, [(0, [(0, 3), (1, 4)])]⟩
      rfl rfl (by decide) (by decide)
  exact ⟨C, S, h1, h2, h3, h4⟩

/-- C7: `get_element` is total — it is a plain function in this model —
and returns the stored value when the `(row, col)` key is present and 0
when the row or the pair is absent, for any integers including negative
or out-of-range ones. -/
theorem claim_C7 (m : SparseMatrix) (r c : Int) :
    (assocFind r m.data = none → m.get_element r c = 0) ∧
    (∀ inner, assocFind r m.data = some inner → assocFind c inner = none →
      m.get_element r c = 0) ∧
    (∀ inner v, assocFind r m.data = some inner → assocFind c inner = some v →
      m.get_element r c = v) := by
  refine ⟨fun h => ?_, fun inner h1 h2 => ?_, fun inner v h1 h2 => ?_⟩
  · simp [SparseMatrix.get_element, h]
  · simp [SparseMatrix.get_element, h1, h2]
  · simp [SparseMatrix.get_element, h1, h2]

/-- C7 witness: absent row (negative index), absent column, and a present
key. -/
theorem claim_C7_witness :
    SparseMatrix.get_element ⟨2, 2, [(0, [(0, 5)])]⟩ (-1) 7 = 0 ∧
    SparseMatrix.get_element ⟨2, 2, [(0, [(0, 5)])]⟩ 0 3 = 0 ∧
    SparseMatrix.get_element ⟨2, 2, [(0, [(0, 5)])]⟩ 0 0 = 5 :=
  ⟨(claim_C7 ⟨2, 2, [(0, [(0, 5)])]⟩ (-1) 7).1 rfl,
   (claim_C7 ⟨2, 2, [(0, [(0, 5)])]⟩ 0 3).2.1 [(0, 5)] rfl rfl,
   (claim_C7 ⟨2, 2, [(0, [(0, 5)])]⟩ 0 0).2.2 [(0, 5)] 5 rfl rfl⟩

/-- C9: addition is commutative up to value equality: both orders
succeed, with equal dimensions, the same stored key set (the union of the
operands' key sets), and equal values at every stored key. -/
theorem claim_C9 (A B : SparseMatrix) (hr : A.rows = B.rows) (hc : A.cols = B.cols)
    (hA : WF A) (hB : WF B) :
    ∃ C D, A.add B = .ok C ∧ B.add A = .ok D ∧ C.rows = D.rows ∧ C.cols = D.cols ∧
      (∀ r c : Int,
        (storedB C r c = true ↔ (storedB A r c = true ∨ storedB B r c = true)) ∧
        (storedB D r c = true ↔ (storedB A r c = true ∨ storedB B r c = true))) ∧
      (∀ r c : Int, storedB C r c = true → C.get_element r c = D.get_element r c) := by
  refine ⟨addResult A B, addResult B A, add_eq_ok hr hc, add_eq_ok hr.symm hc.symm,
    ?_, ?_, ?_, ?_⟩
  · rw [addResult_rows, addResult_rows, hr]
  · rw [addResult_cols, addResult_cols, hc]
  · intro r c
    exact ⟨addResult_stored A B hA hB r c,
      (addResult_stored B A hB hA r c).trans (by tauto)⟩
  · intro r c _
    rw [addResult_get _ _ hB, addResult_get _ _ hA]
    ring

/-- C9 witness: both orders of the spec's worked example sum. -/
theorem claim_C9_witness :
    ∃ C D, SparseMatrix.add ⟨2, 2, [(0, [(0, 1)]), (1, [(1, 2)])]⟩
        ⟨2, 2, [(0, [(0, 3), (1, 4)])]⟩ = .ok C ∧
      SparseMatrix.add ⟨2, 2, [(0, [(0, 3), (1, 4)])]⟩
        ⟨2, 2, [(0, [(0, 1)]), (1, [(1, 2)])]⟩ = .ok D ∧
      C.rows = D.rows ∧ C.cols = D.cols := by
  obtain ⟨C, D, h1, h2, h3, h4, _⟩ :=
    claim_C9 ⟨2, 2, [(0, [(0, 1)]), (1, [(1, 2)])]⟩ ⟨2, 2, [(0, [(0, 3), (1, 4)])]⟩
      rfl rfl (by decide) (by decide)
  exact ⟨C, D, h1, h2, h3, h4⟩

/-! ## Claim theorems: parser failure modes -/

theorem nth_none_of_le {α : Type} : ∀ (L : List α) (n : Nat), L.length ≤ n → nth L n = none
  | [], _, _ => rfl
  | x :: xs, 0, h => by simp at h
  | x :: xs, n + 1, h => nth_none_of_le xs n (by simpa using h)

theorem parseEntries_total (lines : List (List Char)) (m : SparseMatrix) :
    (∃ m', parseEntries lines m = .ok m') ∨
      parseEntries lines m = .error (.formatError "Input file has wrong format") := by
  induction lines generalizing m with
  | nil => exact Or.inl ⟨m, rfl⟩
  | cons l rest ih =>
    cases hp : parseEntry l with
    | none =>
      right
      simp [parseEntries, hp]
    | some t =>
      obtain ⟨r, c, v⟩ := t
      simpa [parseEntries, hp] using ih (m.set_element r c v)

theorem parseEntries_error_of_mem :
    ∀ (lines : List (List Char)) (l : List Char) (m : SparseMatrix), l ∈ lines →
      parseEntry l = none →
      parseEntries lines m = .error (.formatError "Input file has wrong format") := by
  intro lines
  induction lines with
  | nil => intro l m hmem; simp at hmem
  | cons l0 rest ih =>
    intro l m hmem hbad
    cases hp : parseEntry l0 with
    | none => simp [parseEntries, hp]
    | some t =>
      obtain ⟨r, c, v⟩ := t
      rcases List.mem_cons.mp hmem with rfl | hmem'
      · rw [hp] at hbad
        cases hbad
      · simpa [parseEntries, hp] using ih l (m.set_element r c v) hmem' hbad

/-- C5: `from_text` fails with `FormatError` whenever the input has fewer
than two nonblank lines, and whenever any entry line (a nonblank line
after the first two), stripped of one leading and one trailing character
and split on `','`, does not yield exactly three integer tokens
(`parseEntry` returns `none` exactly in that case).  No partial matrix is
returned, by the shape of `Except`. -/
theorem claim_C5 :
    (∀ s : String, (linesOf s.data).length < 2 →
      fromText s = .error (.formatError "Input file has wrong format")) ∧
    (∀ (s : String) (l : List Char), l ∈ (linesOf s.data).drop 2 →
      parseEntry l = none →
      fromText s = .error (.formatError "Input file has wrong format")) := by
  constructor
  · intro s hlen
    unfold fromText fromTextLines
    have h1 : parseHeaderLine (linesOf s.data) 1 = none := by
      unfold parseHeaderLine
      rw [nth_none_of_le _ _ (by omega)]
    cases h0 : parseHeaderLine (linesOf s.data) 0 <;> simp [h0, h1]
  · intro s l hmem hbad
    unfold fromText fromTextLines
    cases h0 : parseHeaderLine (linesOf s.data) 0 with
    | none => simp [h0]
    | some r =>
      cases h1 : parseHeaderLine (linesOf s.data) 1 with
      | none => simp [h0, h1]
      | some c =>
        simpa [h0, h1] using parseEntries_error_of_mem _ l _ hmem hbad

/-- C5 witness: the spec's two malformed examples — a missing `cols` line
and a two-token entry. -/
theorem claim_C5_witness :
    fromText "rows=2\n" = .error (.formatError "Input file has wrong format") ∧
    fromText "rows=2\ncols=2\n(1,1)\n" = .error (.formatError "Input file has wrong format") :=
  ⟨claim_C5.1 "rows=2\n" (by decide),
   claim_C5.2 "rows=2\ncols=2\n(1,1)\n" ['(', '1', ',', '1', ')'] (by decide) (by decide)⟩

/-- C10: `FormatError` is the only failure mode of deserialization: every
input string either parses to a matrix or yields the format error, and
the degenerate inputs (header without `'='`, non-integer dimension token,
an entry line shorter than two characters) all yield the format error. -/
theorem claim_C10 :
    (∀ s : String, (∃ m, fromText s = .ok m) ∨
      fromText s = .error (.formatError "Input file has wrong format")) ∧
    fromText "rows\ncols\n" = .error (.formatError "Input file has wrong format") ∧
    fromText "rows=x\ncols=2\n" = .error (.formatError "Input file has wrong format") ∧
    fromText "rows=2\ncols=2\n(\n" = .error (.formatError "Input file has wrong format") := by
  refine ⟨?_, rfl, rfl, rfl⟩
  intro s
  unfold fromText fromTextLines
  cases h0 : parseHeaderLine (linesOf s.data) 0 with
  | none => right; simp [h0]
  | some r =>
    cases h1 : parseHeaderLine (linesOf s.data) 1 with
    | none => right; simp [h0, h1]
    | some c => simpa [h0, h1] using parseEntries_total _ _

/-! ## Round-trip, part 1: integers print and re-parse -/

theorem digitChar_class (d : Nat) (h : d < 10) :
    (Nat.digitChar d).isDigit = true ∧ (Nat.digitChar d).toNat = 48 + d ∧
    isSpace (Nat.digitChar d) = false ∧ Nat.digitChar d ≠ '\n' ∧
    Nat.digitChar d ≠ '=' ∧ Nat.digitChar d ≠ ',' ∧ Nat.digitChar d ≠ '-' ∧
    Nat.digitChar d ≠ '+' ∧ Nat.digitChar d ≠ '(' ∧ Nat.digitChar d ≠ ')' := by
  interval_cases d <;> exact (by decide)

theorem natCharsAux_acc (n : Nat) : ∀ acc, natCharsAux n acc = natCharsAux n [] ++ acc := by
  induction n using Nat.strong_induction_on with
  | _ n ih =>
    intro acc
    by_cases h : n = 0
    · subst h
      have h0 : ∀ acc' : List Char, natCharsAux 0 acc' = acc' := by
        intro acc'
        rw [natCharsAux]
        simp
      rw [h0, h0]
      simp
    · have hstep : ∀ acc' : List Char,
          natCharsAux n acc' = natCharsAux (n / 10) (Nat.digitChar (n % 10) :: acc') := by
        intro acc'
        rw [natCharsAux, dif_neg h]
      rw [hstep acc, hstep []]
      have hlt : n / 10 < n := Nat.div_lt_self (Nat.pos_of_ne_zero h) (by decide)
      rw [ih _ hlt (Nat.digitChar (n % 10) :: acc), ih _ hlt [Nat.digitChar (n % 10)]]
      simp

theorem natCharsAux_mem (n : Nat) : ∀ (acc : List Char) (c : Char), c ∈ natCharsAux n acc →
    c ∈ acc ∨ ∃ d, d < 10 ∧ c = Nat.digitChar d := by
  induction n using Nat.strong_induction_on with
  | _ n ih =>
    intro acc c hc
    by_cases h : n = 0
    · subst h
      rw [natCharsAux, dif_pos rfl] at hc
      exact Or.inl hc
    · rw [natCharsAux, dif_neg h] at hc
      have hlt : n / 10 < n := Nat.div_lt_self (Nat.pos_of_ne_zero h) (by decide)
      rcases ih _ hlt _ c hc with hc' | hc'
      · rcases List.mem_cons.mp hc' with rfl | hc''
        · exact Or.inr ⟨n % 10, Nat.mod_lt _ (by omega), rfl⟩
        · exact Or.inl hc''
      · exact Or.inr hc'

theorem natChars_mem {n : Nat} {c : Char} (hc : c ∈ natChars n) :
    ∃ d, d < 10 ∧ c = Nat.digitChar d := by
  unfold natChars at hc
  split_ifs at hc with h
  · simp only [List.mem_singleton] at hc
    exact ⟨0, by omega, hc⟩
  · rcases natCharsAux_mem n [] c hc with h' | h'
    · simp at h'
    · exact h'

theorem natChars_ne_nil (n : Nat) : natChars n ≠ [] := by
  unfold natChars
  split_ifs with h
  · simp
  · rw [natCharsAux, dif_neg h, natCharsAux_acc]
    simp

theorem digitsVal_append (xs : List Char) (c : Char) :
    digitsVal (xs ++ [c]) = digitsVal xs * 10 + (c.toNat - 48) := by
  simp [digitsVal, List.foldl_append]

theorem digitsVal_natCharsAux : ∀ n : Nat, n ≠ 0 → digitsVal (natCharsAux n []) = n := by
  intro n
  induction n using Nat.strong_induction_on with
  | _ n ih =>
    intro h
    rw [natCharsAux, dif_neg h, natCharsAux_acc]
    rw [digitsVal_append]
    have h10 : n % 10 < 10 := Nat.mod_lt _ (by omega)
    rw [(digitChar_class _ h10).2.1]
    have hlt : n / 10 < n := Nat.div_lt_self (Nat.pos_of_ne_zero h) (by decide)
    by_cases h0 : n / 10 = 0
    · rw [h0]
      have hzero : digitsVal (natCharsAux 0 []) = 0 := by
        rw [natCharsAux, dif_pos rfl]
        rfl
      rw [hzero]
      omega
    · rw [ih _ hlt h0]
      omega

theorem natChars_all_digits (n : Nat) : (natChars n).all (·.isDigit) = true := by
  rw [List.all_eq_true]
  intro c hc
  obtain ⟨d, hd, rfl⟩ := natChars_mem hc
  exact (digitChar_class d hd).1

theorem parseDigits_natChars (n : Nat) : parseDigits (natChars n) = some n := by
  unfold parseDigits
  rw [if_pos (And.intro (natChars_ne_nil n) (natChars_all_digits n))]
  congr 1
  unfold natChars
  split_ifs with h
  · subst h
    decide
  · exact digitsVal_natCharsAux n h

theorem natChars_class (n : Nat) : ∀ c ∈ natChars n,
    isSpace c = false ∧ c ≠ '\n' ∧ c ≠ '=' ∧ c ≠ ',' ∧ c ≠ '-' ∧ c ≠ '+' ∧
      c ≠ '(' ∧ c ≠ ')' := by
  intro c hc
  obtain ⟨d, hd, rfl⟩ := natChars_mem hc
  obtain ⟨-, -, h3, h4, h5, h6, h7, h8, h9, h10⟩ := digitChar_class d hd
  exact ⟨h3, h4, h5, h6, h7, h8, h9, h10⟩

theorem intChars_class (i : Int) : ∀ c ∈ intChars i,
    isSpace c = false ∧ c ≠ '\n' ∧ c ≠ '=' ∧ c ≠ ',' ∧ c ≠ '(' ∧ c ≠ ')' := by
  intro c hc
  unfold intChars at hc
  split_ifs at hc with h
  · rcases List.mem_cons.mp hc with rfl | hc'
    · refine ⟨by decide, by decide, by decide, by decide, by decide, by decide⟩
    · obtain ⟨h1, h2, h3, h4, -, -, h7, h8⟩ := natChars_class _ c hc'
      exact ⟨h1, h2, h3, h4, h7, h8⟩
  · obtain ⟨h1, h2, h3, h4, -, -, h7, h8⟩ := natChars_class _ c hc
    exact ⟨h1, h2, h3, h4, h7, h8⟩

theorem intChars_ne_nil (i : Int) : intChars i ≠ [] := by
  unfold intChars
  split_ifs with h
  · simp
  · exact natChars_ne_nil _

theorem dropWhile_id_of_all (p : Char → Bool) (cs : List Char)
    (h : ∀ c ∈ cs, p c = false) : cs.dropWhile p = cs := by
  cases cs with
  | nil => rfl
  | cons c cs' =>
    rw [List.dropWhile_cons, h c (List.mem_cons_self _ _)]
    simp

theorem trim_of_nonspace (cs : List Char) (h : ∀ c ∈ cs, isSpace c = false) :
    trimChars cs = cs := by
  unfold trimChars
  rw [dropWhile_id_of_all _ _ h,
    dropWhile_id_of_all _ _ (fun c hc => h c (List.mem_reverse.mp hc)),
    List.reverse_reverse]

theorem parseIntChars_cons (c : Char) (rest : List Char)
    (h : trimChars (c :: rest) = c :: rest) :
    parseIntChars (c :: rest) =
      if c = '-' then (parseDigits rest).map (fun n => -(n : Int))
      else if c = '+' then (parseDigits rest).map (fun n => (n : Int))
      else (parseDigits (c :: rest)).map (fun n => (n : Int)) := by
  unfold parseIntChars
  rw [h]

theorem parseIntChars_intChars (i : Int) : parseIntChars (intChars i) = some i := by
  have htrim : trimChars (intChars i) = intChars i :=
    trim_of_nonspace _ (fun c hc => (intChars_class i c hc).1)
  by_cases h : i < 0
  · have hform : intChars i = '-' :: natChars (-i).toNat := by
      unfold intChars
      rw [if_pos h]
    rw [hform] at htrim
    rw [hform, parseIntChars_cons _ _ htrim, if_pos rfl, parseDigits_natChars]
    have hcast : ((-i).toNat : Int) = -i := Int.toNat_of_nonneg (by omega)
    simp [hcast]
  · have hform : intChars i = natChars i.toNat := by
      unfold intChars
      rw [if_neg h]
    cases hnc : natChars i.toNat with
    | nil => exact absurd hnc (natChars_ne_nil _)
    | cons c rest =>
      have hc : c ∈ natChars i.toNat := by
        rw [hnc]
        exact List.mem_cons_self _ _
      obtain ⟨d, hd, rfl⟩ := natChars_mem hc
      rw [hform, hnc] at htrim
      rw [hform, hnc, parseIntChars_cons _ _ htrim,
        if_neg (digitChar_class d hd).2.2.2.2.2.2.1,
        if_neg (digitChar_class d hd).2.2.2.2.2.2.2.1,
        ← hnc, parseDigits_natChars]
      have hcast : (i.toNat : Int) = i := Int.toNat_of_nonneg (by omega)
      simp [hcast]

/-! ## Round-trip, part 2: splitting and stripping the rendered lines -/

theorem splitOnChar_ne_nil (sep : Char) : ∀ cs : List Char, splitOnChar sep cs ≠ [] := by
  intro cs
  induction cs with
  | nil => simp [splitOnChar]
  | cons c cs ih =>
    rw [splitOnChar]
    cases h : splitOnChar sep cs with
    | nil => exact absurd h ih
    | cons g gs => split_ifs <;> simp

theorem splitOnChar_not_mem {sep : Char} : ∀ {l : List Char}, sep ∉ l →
    splitOnChar sep l = [l] := by
  intro l
  induction l with
  | nil => intro h; rfl
  | cons c cs ih =>
    intro h
    have h1 : ¬ c = sep := fun he => h (by rw [he]; exact List.mem_cons_self _ _)
    have h2 : sep ∉ cs := fun hm => h (List.mem_cons_of_mem _ hm)
    rw [splitOnChar, ih h2]
    simp [h1]

theorem splitOnChar_append (sep : Char) : ∀ (l rest : List Char), sep ∉ l →
    splitOnChar sep (l ++ sep :: rest) = l :: splitOnChar sep rest := by
  intro l
  induction l with
  | nil =>
    intro rest h
    show splitOnChar sep (sep :: rest) = [] :: splitOnChar sep rest
    rw [splitOnChar]
    cases hs : splitOnChar sep rest with
    | nil => exact absurd hs (splitOnChar_ne_nil sep rest)
    | cons g gs => simp
  | cons c l ih =>
    intro rest h
    have h1 : ¬ c = sep := fun he => h (by rw [he]; exact List.mem_cons_self _ _)
    have h2 : sep ∉ l := fun hm => h (List.mem_cons_of_mem _ hm)
    show splitOnChar sep (c :: (l ++ sep :: rest)) = (c :: l) :: splitOnChar sep rest
    rw [splitOnChar, ih rest h2]
    simp [h1]

theorem trim_eq_self_of_ends (cs : List Char)
    (h1 : ∃ x t, cs = x :: t ∧ isSpace x = false)
    (h2 : ∃ y t, cs.reverse = y :: t ∧ isSpace y = false) : trimChars cs = cs := by
  obtain ⟨x, t, rfl, hx⟩ := h1
  obtain ⟨y, t', hrev, hy⟩ := h2
  unfold trimChars
  have e1 : (x :: t).dropWhile isSpace = x :: t := by
    simp [List.dropWhile_cons, hx]
  rw [e1, hrev]
  have e2 : (y :: t').dropWhile isSpace = y :: t' := by
    simp [List.dropWhile_cons, hy]
  rw [e2, ← hrev, List.reverse_reverse]

theorem entryLine_eq_snoc (r c v : Int) :
    entryLine r c v =
      ('(' :: (intChars r ++ [',', ' '] ++ intChars c ++ [',', ' '] ++ intChars v)) ++ [')'] := by
  simp [entryLine, List.append_assoc]

theorem nl_not_mem_entryLine (r c v : Int) : '\n' ∉ entryLine r c v := by
  intro hmem
  have hint : ∀ i : Int, '\n' ∉ intChars i := fun i hm => ((intChars_class i _ hm).2.1) rfl
  simp [entryLine, List.mem_cons, List.mem_append, hint] at hmem

theorem trim_entryLine (r c v : Int) : trimChars (entryLine r c v) = entryLine r c v := by
  apply trim_eq_self_of_ends
  · exact ⟨'(', _, rfl, by decide⟩
  · refine ⟨')', ('(' :: (intChars r ++ [',', ' '] ++ intChars c ++ [',', ' '] ++ intChars v)).reverse,
      ?_, by decide⟩
    rw [entryLine_eq_snoc, List.reverse_append]
    rfl

theorem headerRowChars_nonspace (i : Int) : ∀ x ∈ headerRowChars i, isSpace x = false := by
  intro x hx
  rcases List.mem_append.mp hx with hx | hx
  · simp only [List.mem_cons, List.not_mem_nil, or_false] at hx
    rcases hx with rfl | rfl | rfl | rfl <;> decide
  · rcases List.mem_cons.mp hx with rfl | hx
    · decide
    · exact (intChars_class i x hx).1

theorem headerColChars_nonspace (i : Int) : ∀ x ∈ headerColChars i, isSpace x = false := by
  intro x hx
  rcases List.mem_append.mp hx with hx | hx
  · simp only [List.mem_cons, List.not_mem_nil, or_false] at hx
    rcases hx with rfl | rfl | rfl | rfl <;> decide
  · rcases List.mem_cons.mp hx with rfl | hx
    · decide
    · exact (intChars_class i x hx).1

theorem nl_not_mem_headerRowChars (i : Int) : '\n' ∉ headerRowChars i := by
  intro hmem
  have hint : '\n' ∉ intChars i := fun hm => ((intChars_class i _ hm).2.1) rfl
  simp [headerRowChars, List.mem_cons, List.mem_append, hint] at hmem

theorem nl_not_mem_headerColChars (i : Int) : '\n' ∉ headerColChars i := by
  intro hmem
  have hint : '\n' ∉ intChars i := fun hm => ((intChars_class i _ hm).2.1) rfl
  simp [headerColChars, List.mem_cons, List.mem_append, hint] at hmem

/-! ## Round-trip, part 3: the rendered text splits back into its lines -/

/-- The entry lines one row contributes, in order. -/
def rowLines (r : Int) : List (Int × Int) → List (List Char)
  | [] => []
  | q :: rest => entryLine r q.1 q.2 :: rowLines r rest

/-- All entry lines of the dictionary, in iteration order. -/
def entryLinesList : List (Int × List (Int × Int)) → List (List Char)
  | [] => []
  | p :: rest => rowLines p.1 p.2 ++ entryLinesList rest

theorem splitNL_rowText (r : Int) : ∀ (inner : List (Int × Int)) (rest : List Char),
    splitOnChar '\n' (rowText r inner ++ rest) =
      rowLines r inner ++ splitOnChar '\n' rest := by
  intro inner
  induction inner with
  | nil => intro rest; rfl
  | cons q rest' ih =>
    intro rest
    show splitOnChar '\n' (((entryLine r q.1 q.2 ++ ['\n']) ++ rowText r rest') ++ rest) =
      (entryLine r q.1 q.2 :: rowLines r rest') ++ splitOnChar '\n' rest
    rw [List.append_assoc, List.append_assoc, List.singleton_append,
      splitOnChar_append _ _ _ (nl_not_mem_entryLine r q.1 q.2), ih rest]
    rfl

theorem splitNL_entriesText : ∀ d : List (Int × List (Int × Int)),
    splitOnChar '\n' (entriesText d) = entryLinesList d ++ [[]] := by
  intro d
  induction d with
  | nil => rfl
  | cons p rest ih =>
    show splitOnChar '\n' (rowText p.1 p.2 ++ entriesText rest) =
      (rowLines p.1 p.2 ++ entryLinesList rest) ++ [[]]
    rw [splitNL_rowText, ih, List.append_assoc]

theorem map_trim_rowLines (r : Int) : ∀ inner : List (Int × Int),
    (rowLines r inner).map trimChars = rowLines r inner := by
  intro inner
  induction inner with
  | nil => rfl
  | cons q rest ih => simp [rowLines, trim_entryLine, ih]

theorem map_trim_entryLinesList : ∀ d : List (Int × List (Int × Int)),
    (entryLinesList d).map trimChars = entryLinesList d := by
  intro d
  induction d with
  | nil => rfl
  | cons p rest ih => simp [entryLinesList, map_trim_rowLines, ih]

theorem mem_rowLines {r : Int} : ∀ {inner : List (Int × Int)} {l : List Char},
    l ∈ rowLines r inner → ∃ c v, l = entryLine r c v := by
  intro inner
  induction inner with
  | nil => intro l hl; simp [rowLines] at hl
  | cons q rest ih =>
    intro l hl
    rcases List.mem_cons.mp hl with rfl | hl
    · exact ⟨q.1, q.2, rfl⟩
    · exact ih hl

theorem mem_entryLinesList : ∀ {d : List (Int × List (Int × Int))} {l : List Char},
    l ∈ entryLinesList d → ∃ r c v, l = entryLine r c v := by
  intro d
  induction d with
  | nil => intro l hl; simp [entryLinesList] at hl
  | cons p rest ih =>
    intro l hl
    rcases List.mem_append.mp hl with hl | hl
    · obtain ⟨c, v, rfl⟩ := mem_rowLines hl
      exact ⟨p.1, c, v, rfl⟩
    · exact ih hl

theorem entryLine_ne_nil (r c v : Int) : entryLine r c v ≠ [] := by
  simp [entryLine]

theorem filter_entryLinesList (d : List (Int × List (Int × Int))) :
    (entryLinesList d).filter (fun l => !l.isEmpty) = entryLinesList d := by
  rw [List.filter_eq_self]
  intro l hl
  obtain ⟨r, c, v, rfl⟩ := mem_entryLinesList hl
  simp [entryLine]

theorem linesOf_toText (m : SparseMatrix) :
    linesOf (toTextChars m) =
      headerRowChars m.rows :: headerColChars m.cols :: entryLinesList m.data := by
  unfold linesOf toTextChars
  rw [splitOnChar_append _ _ _ (nl_not_mem_headerRowChars m.rows),
    splitOnChar_append _ _ _ (nl_not_mem_headerColChars m.cols),
    splitNL_entriesText]
  rw [List.map_cons, List.map_cons, List.map_append,
    trim_of_nonspace _ (headerRowChars_nonspace m.rows),
    trim_of_nonspace _ (headerColChars_nonspace m.cols),
    map_trim_entryLinesList]
  have hh1 : (!(headerRowChars m.rows).isEmpty) = true := by
    simp [headerRowChars]
  have hh2 : (!(headerColChars m.cols).isEmpty) = true := by
    simp [headerColChars]
  rw [List.filter_cons, if_pos hh1, List.filter_cons, if_pos hh2, List.filter_append,
    filter_entryLinesList]
  simp [trimChars]

/-! ## Round-trip, part 4: the rendered lines parse back -/

theorem eq_not_mem_intChars (i : Int) : '=' ∉ intChars i :=
  fun hm => ((intChars_class i _ hm).2.2.1) rfl

theorem comma_not_mem_intChars (i : Int) : ',' ∉ intChars i :=
  fun hm => ((intChars_class i _ hm).2.2.2.1) rfl

theorem parseHeaderLine_cons_zero (l : List Char) (L : List (List Char)) :
    parseHeaderLine (l :: L) 0 =
      match nth (splitOnChar '=' l) 1 with
      | none => none
      | some tok => parseIntChars tok := rfl

theorem parseHeaderLine_cons_one (l0 l1 : List Char) (L : List (List Char)) :
    parseHeaderLine (l0 :: l1 :: L) 1 =
      match nth (splitOnChar '=' l1) 1 with
      | none => none
      | some tok => parseIntChars tok := rfl

theorem splitEq_headerRowChars (i : Int) :
    splitOnChar '=' (headerRowChars i) = [['r', 'o', 'w', 's'], intChars i] := by
  unfold headerRowChars
  rw [splitOnChar_append '=' ['r', 'o', 'w', 's'] (intChars i) (by decide),
    splitOnChar_not_mem (eq_not_mem_intChars i)]

theorem splitEq_headerColChars (i : Int) :
    splitOnChar '=' (headerColChars i) = [['c', 'o', 'l', 's'], intChars i] := by
  unfold headerColChars
  rw [splitOnChar_append '=' ['c', 'o', 'l', 's'] (intChars i) (by decide),
    splitOnChar_not_mem (eq_not_mem_intChars i)]

theorem parseHeader_headerRow (i : Int) (L : List (List Char)) :
    parseHeaderLine (headerRowChars i :: L) 0 = some i := by
  rw [parseHeaderLine_cons_zero, splitEq_headerRowChars]
  show parseIntChars (intChars i) = some i
  exact parseIntChars_intChars i

theorem parseHeader_headerCol (l0 : List Char) (i : Int) (L : List (List Char)) :
    parseHeaderLine (l0 :: headerColChars i :: L) 1 = some i := by
  rw [parseHeaderLine_cons_one, splitEq_headerColChars]
  show parseIntChars (intChars i) = some i
  exact parseIntChars_intChars i

theorem parseInt_cons_space (l : List Char) : parseIntChars (' ' :: l) = parseIntChars l := by
  unfold parseIntChars
  have htrim : trimChars (' ' :: l) = trimChars l := by
    unfold trimChars
    rw [List.dropWhile_cons, if_pos (by decide : isSpace ' ' = true)]
  rw [htrim]

theorem parseEntry_entryLine (r c v : Int) : parseEntry (entryLine r c v) = some (r, c, v) := by
  unfold parseEntry
  have hdrop : (entryLine r c v).drop 1 =
      intChars r ++ [',', ' '] ++ intChars c ++ [',', ' '] ++ intChars v ++ [')'] := rfl
  rw [hdrop]
  have hlast : (intChars r ++ [',', ' '] ++ intChars c ++ [',', ' '] ++ intChars v ++ [')']).dropLast
      = intChars r ++ [',', ' '] ++ intChars c ++ [',', ' '] ++ intChars v := by
    rw [show intChars r ++ [',', ' '] ++ intChars c ++ [',', ' '] ++ intChars v ++ [')']
        = (intChars r ++ [',', ' '] ++ intChars c ++ [',', ' '] ++ intChars v) ++ [')'] from by
      simp [List.append_assoc]]
    exact List.dropLast_concat
  rw [hlast]
  have hcomma2 : ',' ∉ ' ' :: intChars c := by
    intro hm
    rcases List.mem_cons.mp hm with h | h
    · cases h
    · exact comma_not_mem_intChars c h
  have hcomma3 : ',' ∉ ' ' :: intChars v := by
    intro hm
    rcases List.mem_cons.mp hm with h | h
    · cases h
    · exact comma_not_mem_intChars v h
  have hsplit : splitOnChar ',' (intChars r ++ [',', ' '] ++ intChars c ++ [',', ' '] ++ intChars v)
      = [intChars r, ' ' :: intChars c, ' ' :: intChars v] := by
    rw [show intChars r ++ [',', ' '] ++ intChars c ++ [',', ' '] ++ intChars v
        = intChars r ++ ',' :: ((' ' :: intChars c) ++ ',' :: (' ' :: intChars v)) from by
      simp [List.append_assoc]]
    rw [splitOnChar_append ',' _ _ (comma_not_mem_intChars r),
      splitOnChar_append ',' (' ' :: intChars c) _ hcomma2,
      splitOnChar_not_mem hcomma3]
  rw [hsplit]
  show (match parseIntChars (intChars r), parseIntChars (' ' :: intChars c),
          parseIntChars (' ' :: intChars v) with
        | some r', some co, some v' => some (r', co, v')
        | _, _, _ => none) = some (r, c, v)
  rw [parseIntChars_intChars, parseInt_cons_space, parseIntChars_intChars,
    parseInt_cons_space, parseIntChars_intChars]

/-! ## Round-trip, part 5: re-running the entry loop rebuilds the data -/

theorem setInner_append (acc : List (Int × Int)) (c v : Int)
    (h : c ∉ acc.map Prod.fst) : setInner acc c v = acc ++ [(c, v)] := by
  induction acc with
  | nil => rfl
  | cons q rest ih =>
    obtain ⟨qk, qv⟩ := q
    simp only [List.map_cons, List.mem_cons] at h
    push_neg at h
    simp only [setInner, if_neg (fun he : qk = c => h.1 he.symm), List.cons_append]
    rw [ih h.2]

theorem setOuter_append (d : List (Int × List (Int × Int))) (r c v : Int)
    (h : r ∉ d.map Prod.fst) : setOuter d r c v = d ++ [(r, [(c, v)])] := by
  induction d with
  | nil => rfl
  | cons p rest ih =>
    obtain ⟨pk, pv⟩ := p
    simp only [List.map_cons, List.mem_cons] at h
    push_neg at h
    simp only [setOuter, if_neg (fun he : pk = r => h.1 he.symm), List.cons_append]
    rw [ih h.2]

theorem setOuter_last (pre : List (Int × List (Int × Int))) (r : Int)
    (acc : List (Int × Int)) (c v : Int) (h : r ∉ pre.map Prod.fst) :
    setOuter (pre ++ [(r, acc)]) r c v = pre ++ [(r, setInner acc c v)] := by
  induction pre with
  | nil => simp [setOuter]
  | cons p rest ih =>
    obtain ⟨pk, pv⟩ := p
    simp only [List.map_cons, List.mem_cons] at h
    push_neg at h
    show setOuter ((pk, pv) :: (rest ++ [(r, acc)])) r c v
      = (pk, pv) :: (rest ++ [(r, setInner acc c v)])
    simp only [setOuter, if_neg (fun he : pk = r => h.1 he.symm)]
    rw [ih h.2]

theorem parseEntries_rowLines (r : Int) :
    ∀ (inner : List (Int × Int)) (Ls : List (List Char)) (m : SparseMatrix),
      parseEntries (rowLines r inner ++ Ls) m
        = parseEntries Ls (inner.foldl (fun m' q => m'.set_element r q.1 q.2) m) := by
  intro inner
  induction inner with
  | nil => intro Ls m; rfl
  | cons q rest ih =>
    intro Ls m
    show parseEntries (entryLine r q.1 q.2 :: (rowLines r rest ++ Ls)) m = _
    simp only [parseEntries, parseEntry_entryLine]
    rw [ih]
    rfl

theorem rowFold_build (R C r : Int) :
    ∀ (inner acc : List (Int × Int)) (pre : List (Int × List (Int × Int))),
      r ∉ pre.map Prod.fst →
      (inner.map Prod.fst).Nodup →
      (∀ x ∈ inner.map Prod.fst, x ∉ acc.map Prod.fst) →
      inner.foldl (fun m' q => SparseMatrix.set_element m' r q.1 q.2)
          (⟨R, C, pre ++ [(r, acc)]⟩ : SparseMatrix)
        = ⟨R, C, pre ++ [(r, acc ++ inner)]⟩ := by
  intro inner
  induction inner with
  | nil => intro acc pre hpre hnd hdisj; simp
  | cons q rest ih =>
    intro acc pre hpre hnd hdisj
    obtain ⟨c, v⟩ := q
    simp only [List.map_cons, List.nodup_cons] at hnd
    rw [List.foldl_cons]
    have hstep : SparseMatrix.set_element ⟨R, C, pre ++ [(r, acc)]⟩ r c v
        = ⟨R, C, pre ++ [(r, acc ++ [(c, v)])]⟩ := by
      unfold SparseMatrix.set_element
      simp only
      rw [setOuter_last pre r acc c v hpre,
        setInner_append acc c v (hdisj c (by simp))]
    have hdisj' : ∀ x ∈ rest.map Prod.fst, x ∉ (acc ++ [(c, v)]).map Prod.fst := by
      intro x hx hmem
      rw [List.map_append] at hmem
      rcases List.mem_append.mp hmem with h' | h'
      · exact hdisj x (List.mem_cons_of_mem _ hx) h'
      · simp only [List.map_cons, List.map_nil, List.mem_singleton] at h'
        subst h'
        exact hnd.1 hx
    rw [hstep, ih (acc ++ [(c, v)]) pre hpre hnd.2 hdisj']
    simp

theorem rowFold_start (R C r : Int) (pre : List (Int × List (Int × Int)))
    (hpre : r ∉ pre.map Prod.fst) (inner : List (Int × Int)) (hne : inner ≠ [])
    (hnd : (inner.map Prod.fst).Nodup) :
    inner.foldl (fun m' q => SparseMatrix.set_element m' r q.1 q.2)
        (⟨R, C, pre⟩ : SparseMatrix) = ⟨R, C, pre ++ [(r, inner)]⟩ := by
  cases inner with
  | nil => exact absurd rfl hne
  | cons q rest =>
    obtain ⟨c, v⟩ := q
    simp only [List.map_cons, List.nodup_cons] at hnd
    rw [List.foldl_cons]
    have hstep : SparseMatrix.set_element ⟨R, C, pre⟩ r c v
        = ⟨R, C, pre ++ [(r, [(c, v)])]⟩ := by
      unfold SparseMatrix.set_element
      simp only
      rw [setOuter_append pre r c v hpre]
    have hdisj : ∀ x ∈ rest.map Prod.fst, x ∉ ([(c, v)] : List (Int × Int)).map Prod.fst := by
      intro x hx hmem
      simp only [List.map_cons, List.map_nil, List.mem_singleton] at hmem
      subst hmem
      exact hnd.1 hx
    rw [hstep, rowFold_build R C r rest [(c, v)] pre hpre hnd.2 hdisj]
    simp

theorem parseEntries_build (R C : Int) :
    ∀ (d pre : List (Int × List (Int × Int))),
      (∀ p ∈ d, p.1 ∉ pre.map Prod.fst) →
      (d.map Prod.fst).Nodup →
      (∀ p ∈ d, (p.2.map Prod.fst).Nodup) →
      (∀ p ∈ d, p.2 ≠ []) →
      parseEntries (entryLinesList d) ⟨R, C, pre⟩ = .ok ⟨R, C, pre ++ d⟩ := by
  intro d
  induction d with
  | nil => intro pre _ _ _ _; simp [entryLinesList, parseEntries]
  | cons p rest ih =>
    intro pre hdisj hnd hinner hne
    obtain ⟨r, inner⟩ := p
    simp only [List.map_cons, List.nodup_cons] at hnd
    show parseEntries (rowLines r inner ++ entryLinesList rest) ⟨R, C, pre⟩ = _
    rw [parseEntries_rowLines,
      rowFold_start R C r pre (hdisj (r, inner) (List.mem_cons_self _ _)) inner
        (hne _ (List.mem_cons_self _ _)) (hinner _ (List.mem_cons_self _ _))]
    have hdisj' : ∀ p' ∈ rest, p'.1 ∉ (pre ++ [(r, inner)]).map Prod.fst := by
      intro p' hp' hmem
      rw [List.map_append] at hmem
      rcases List.mem_append.mp hmem with h' | h'
      · exact hdisj p' (List.mem_cons_of_mem _ hp') h'
      · simp only [List.map_cons, List.map_nil, List.mem_singleton] at h'
        exact hnd.1 (h' ▸ List.mem_map.mpr ⟨p', hp', rfl⟩)
    rw [ih (pre ++ [(r, inner)]) hdisj' hnd.2
      (fun p' hp' => hinner p' (List.mem_cons_of_mem _ hp'))
      (fun p' hp' => hne p' (List.mem_cons_of_mem _ hp'))]
    simp

theorem fromText_toText (m : SparseMatrix) (h : WFNE m) : fromText (toText m) = .ok m := by
  obtain ⟨⟨hk, hin⟩, hne⟩ := h
  unfold fromText toText
  rw [show (String.mk (toTextChars m)).data = toTextChars m from rfl, linesOf_toText]
  unfold fromTextLines
  rw [parseHeader_headerRow, parseHeader_headerCol]
  show parseEntries (entryLinesList m.data) ⟨m.rows, m.cols, []⟩ = .ok m
  rw [parseEntries_build m.rows m.cols m.data [] (by simp) hk hin hne]
  simp

/-- C4: serializing a matrix and parsing the text back succeeds and
yields a matrix with the same `rows`, the same `cols`, the same stored
key set, and the same value at every coordinate — in fact the parse
rebuilds the very same matrix value.  The hypothesis `WFNE` is the
invariant every matrix reachable through the Python class satisfies:
dict keys are unique and a row exists only together with at least one
column entry. -/
theorem claim_C4 (m : SparseMatrix) (h : WFNE m) :
    ∃ m', fromText (toText m) = .ok m' ∧ m'.rows = m.rows ∧ m'.cols = m.cols ∧
      (∀ r c : Int, storedB m' r c = storedB m r c) ∧
      (∀ r c : Int, m'.get_element r c = m.get_element r c) :=
  ⟨m, fromText_toText m h, rfl, rfl, fun _ _ => rfl, fun _ _ => rfl⟩

/-- C4 witness: the round trip on a concrete 2×2 matrix with two stored
entries. -/
theorem claim_C4_witness :
    ∃ m', fromText (toText ⟨2, 2, [(0, [(0, 1)]), (1, [(1, 2)])]⟩) = .ok m' ∧
      m'.rows = 2 ∧ m'.cols = 2 := by
  obtain ⟨m', h1, h2, h3, -, -⟩ :=
    claim_C4 ⟨2, 2, [(0, [(0, 1)]), (1, [(1, 2)])]⟩ (by decide)
  exact ⟨m', h1, h2, h3⟩
